import Mathlib

/-!
Verification of `src/extractDependencies.ts` from philll11/boomi-dependency-visualizer.

The script discovers a dependency graph rooted at a component id by recursive,
concurrent traversal of a remote API, with retry-with-backoff and partial
failure handling, and serializes the result as a JSON document.

This file gives a shallow embedding of that script:

* `requestWithRetry` embeds the retry loop (lines 78-102).  A remote operation
  is modelled as a function from the attempt number (1-based) to either a value
  or a `Failure` (an HTTP error carrying a status, or a network error with no
  response, which is how an axios error without `error.response` behaves).
  The embedding additionally records how many times the operation was invoked
  and how many backoff delays were incurred; the real wall-clock delay and the
  random jitter are timing-only and are not modelled.
* `getComponentMetadata` embeds the metadata resolver (lines 106-125) and
  `getDependencies` the reference resolver (lines 128-153).  The TS annotation
  on the metadata response claims `version: number`, but nothing validates the
  payload and `ComponentInfo` itself declares `version?: number`, so the
  embedding carries `Option Nat` for the version throughout.
* The traversal `findAllDependenciesRecursive` (lines 156-187) is embedded as a
  small-step machine.  JavaScript runs the async helper as cooperatively
  scheduled tasks that interleave only at `await` points; the helper has two
  await points (the metadata fetch and the dependency fetch), so an in-flight
  visit is a `VisitTask` that is either waiting for its metadata or waiting for its
  references.  The code from one suspension point to the next runs atomically.
  The order in which pending promises resolve depends on network timing, so the
  scheduler is a nondeterministic relation `Step` (any pending task may resolve
  next); `runD` is the deterministic FIFO schedule, used for concrete runs, and
  every `runD` execution is a chain of `Step`s (`runD_reaches`).
  `metaLookups` and `refLookups` are observational instrumentation recording
  which remote requests the engine issues; they correspond to the calls of
  `getComponentMetadata` and `getDependencies` and let us state the lookup
  bounds from the spec.
* The environment `Env` gives the resolver-level outcome for each id: the
  metadata of an id resolves to `found`, to `notFound` (the resolver returned
  null after a 400/404), or to `hardError` (the resolver threw: retry
  exhaustion, a non-transient server error, or a network error), and the
  reference resolver yields a list of ids (its failures are already absorbed
  into `[]` by `getDependencies`, which never throws).
* The main execution block (lines 193-207) is embedded as `runMain`, and the
  written JSON document as `graphToJson` over a `Json` value tree, together
  with a parser `jsonToGraph` for the round-trip property.
-/

/-! ### Failures and the retry client (lines 78-102) -/

/-- Outcome classification of one remote attempt, as seen by the catch block:
an axios error with a response (carrying an HTTP status), or an error without
a response (network failure). -/
inductive Failure where
  | http (status : Nat)
  | net
deriving DecidableEq, Repr

/-- Status codes retried by `requestWithRetry`: 503 and 504 only (line 86). -/
def isTransient : Failure → Bool
  | .http s => s == 503 || s == 504
  | .net => false

/-- The status carried by `error.response`, when there is a response. -/
def failStatus : Failure → Option Nat
  | .http s => some s
  | .net => none

/-- The `ApiError` class (lines 54-65): optional status and attempt count.
The human-readable message is not modelled. -/
structure ApiError where
  status : Option Nat
  attempts : Option Nat
deriving DecidableEq, Repr

/-- Errors escaping `requestWithRetry`: a thrown `ApiError` (retry
exhaustion, line 88, or the unreachable fallback, line 101), or the original
error rethrown (line 97). -/
inductive ReqError where
  | apiError (e : ApiError)
  | raised (f : Failure)
deriving DecidableEq, Repr

def MAX_RETRIES : Nat := 5

/-- Result of running the retry loop, instrumented with the number of times
the operation was invoked and the number of backoff delays incurred. -/
structure RetryResult (T : Type) where
  result : Except ReqError T
  attempts : Nat
  delays : Nat

/-- The body of the `for` loop of `requestWithRetry`, from a given attempt
number; the fuel counts the remaining loop iterations (`attempt` runs from 1
to `MAX_RETRIES`).  On success, return; on a transient failure (503/504) at
the last attempt, throw `ApiError` with the status and attempt count; on a
transient failure earlier, delay and retry; on any other failure, rethrow. -/
def retryLoop {T : Type} (fn : Nat → Except Failure T) : Nat → Nat → RetryResult T
  | _, 0 => ⟨.error (.apiError ⟨none, some MAX_RETRIES⟩), 0, 0⟩
  | attempt, fuel + 1 =>
    match fn attempt with
    | .ok v => ⟨.ok v, 1, 0⟩
    | .error f =>
      if isTransient f then
        if attempt == MAX_RETRIES then
          ⟨.error (.apiError ⟨failStatus f, some attempt⟩), 1, 0⟩
        else
          let r := retryLoop fn (attempt + 1) fuel
          ⟨r.result, r.attempts + 1, r.delays + 1⟩
      else ⟨.error (.raised f), 1, 0⟩

/-- The retry client `requestWithRetry` (lines 78-102). -/
def requestWithRetry {T : Type} (fn : Nat → Except Failure T) : RetryResult T :=
  retryLoop fn 1 MAX_RETRIES

/-! ### Metadata resolver (lines 106-125) -/

/-- Raw payload of `GET /ComponentMetadata/:id`.  The TS type parameter claims
`version: number`, but the payload is not validated and `ComponentInfo`
declares `version?: number`, so the embedding keeps it optional. -/
structure MetaResponse where
  name : String
  type : String
  version : Option Nat
deriving DecidableEq, Repr

/-- The `ComponentInfo` type (lines 28-33). -/
structure ComponentInfo where
  id : String
  name : String
  type : String
  version : Option Nat
deriving DecidableEq, Repr

/-- The metadata resolver `getComponentMetadata` (lines 106-125): on success,
package the payload with the requested id; on a 400/404 axios error, return
null (`none`); rethrow anything else (network errors have no response status,
and a thrown `ApiError` is not an axios error, so both fall through). -/
def getComponentMetadata (fn : Nat → Except Failure MetaResponse)
    (componentId : String) : Except ReqError (Option ComponentInfo) :=
  match (requestWithRetry fn).result with
  | .ok r => .ok (some ⟨componentId, r.name, r.type, r.version⟩)
  | .error e =>
    match e with
    | .raised (.http s) => if s == 400 || s == 404 then .ok none else .error e
    | _ => .error e

/-! ### Reference resolver (lines 128-153) -/

/-- One entry of a `references` array in the query response. -/
structure RefEntry where
  componentId : String
deriving DecidableEq, Repr

/-- One row of the `result` array; its `references` field may be absent. -/
structure ResultRow where
  references : Option (List RefEntry)
deriving DecidableEq, Repr

/-- The response of `POST /ComponentReference/query`; `result` may be absent. -/
structure QueryResponse where
  result : Option (List ResultRow)
deriving DecidableEq, Repr

/-- The flattening of line 147:
`response.data.result?.flatMap(r => r.references?.map(ref => ref.componentId) || []) || []`.
An absent `result` or an absent `references` contributes nothing. -/
def flattenRefs (resp : QueryResponse) : List String :=
  match resp.result with
  | none => []
  | some rows =>
    rows.flatMap fun r =>
      match r.references with
      | none => []
      | some refs => refs.map RefEntry.componentId

/-- The reference resolver `getDependencies` (lines 128-153): flatten a
successful response; catch every error and return the empty list. -/
def getDependencies (fn : Nat → Except Failure QueryResponse) : List String :=
  match (requestWithRetry fn).result with
  | .ok r => flattenRefs r
  | .error _ => []

/-! ### The traversal machine (lines 156-187) -/

/-- A node of the output graph (lines 36-40). -/
structure Node where
  id : String
  name : String
  type : String
deriving DecidableEq, Repr

/-- An edge of the output graph (lines 42-45). -/
structure Edge where
  source : String
  target : String
deriving DecidableEq, Repr

/-- Resolver-level outcome of `getComponentMetadata` for one id: the payload,
null (after a 400/404), or a thrown error (retry exhaustion, another status,
or a network failure). -/
inductive MetaResult where
  | found (name : String) (type : String) (version : Option Nat)
  | notFound
  | hardError
deriving DecidableEq, Repr

/-- The remote world, at resolver level: what `getComponentMetadata` yields
for each id, and what `getDependencies` yields for each id and version (its
failures are already absorbed into `[]`, since it never throws). -/
structure Env where
  meta : String → MetaResult
  refs : String → Option Nat → List String

/-- An in-flight invocation of `_recursiveHelper`, suspended at one of its two
await points: waiting for the metadata of `id` (line 163), or holding the
metadata version and waiting for the reference query (line 170). -/
inductive VisitTask where
  | awaitMeta (id : String)
  | awaitDeps (id : String) (version : Option Nat)
deriving DecidableEq, Repr

/-- The shared mutable state of one run of `findAllDependenciesRecursive`:
the visited map `nodesMap` (an insertion-ordered association list, like a JS
`Map`), the append-only `edges` list, the pending tasks, and two
instrumentation logs recording each issued metadata request and each issued
reference query (with the version it carried). -/
structure EngineState where
  nodes : List (String × Node)
  edges : List Edge
  tasks : List VisitTask
  metaLookups : List String
  refLookups : List (String × Option Nat)
deriving DecidableEq, Repr

/-- The `nodesMap.has` test of line 161. -/
def mapHas : List (String × Node) → String → Bool
  | [], _ => false
  | (k, _) :: rest, key => k == key || mapHas rest key

/-- The `nodesMap.set` of line 167: overwrite an existing key in place, else
append (JS `Map` insertion-order semantics). -/
def mapSet : List (String × Node) → String → Node → List (String × Node)
  | [], k, v => [(k, v)]
  | (k', v') :: rest, k, v =>
    if k' == k then (k, v) :: rest else (k', v') :: mapSet rest k v

/-- Calling `_recursiveHelper(id)`: the helper runs synchronously up to its
first await, so the `nodesMap.has` check of line 161 happens immediately; if
the id is unseen, the metadata request is issued (logged) and the invocation
suspends as an `awaitMeta` task. -/
def spawn (s : EngineState) (id : String) : EngineState :=
  if mapHas s.nodes id then s
  else { s with tasks := s.tasks ++ [VisitTask.awaitMeta id],
                metaLookups := s.metaLookups ++ [id] }

/-- The loop of lines 173-179, which runs synchronously as one atomic segment:
for each dependency id in order, push the edge parent→dep and call the helper
on the dep. -/
def processDeps (parent : String) (deps : List String) (s : EngineState) :
    EngineState :=
  deps.foldl
    (fun st dep => spawn { st with edges := st.edges ++ [⟨parent, dep⟩] } dep) s

/-- Resume one suspended task (whose entry has already been removed from the
task list).  `none` means the task raised an unhandled error, which rejects
the whole `Promise.all` chain up to the root.  An `awaitMeta` task resumes at
line 164: a null metadata returns, a payload inserts the node (line 167) and
issues the reference query with `metadata.version` unguarded (line 170),
suspending as `awaitDeps`.  An `awaitDeps` task resumes at line 173 and runs
the edge-push/spawn loop. -/
def runTask (env : Env) (s : EngineState) : VisitTask → Option EngineState
  | .awaitMeta id =>
    match env.meta id with
    | .hardError => none
    | .notFound => some s
    | .found name ty ver =>
      some { s with nodes := mapSet s.nodes id ⟨id, name, ty⟩,
                    tasks := s.tasks ++ [VisitTask.awaitDeps id ver],
                    refLookups := s.refLookups ++ [(id, ver)] }
  | .awaitDeps id ver => some (processDeps id (env.refs id ver) s)

/-- Remove the element at position `i`. -/
def removeAt (l : List VisitTask) (i : Nat) : List VisitTask := l.take i ++ l.drop (i + 1)

/-- One scheduling step: the awaited promise of some pending task resolves and the
task runs to its next suspension point (or completes, or raises).  Which task
resolves next depends on network timing, so this is a relation. -/
inductive Step (env : Env) (s : EngineState) : EngineState → Prop where
  | mk (i : Nat) (t : VisitTask) (s' : EngineState)
      (ht : s.tasks.get? i = some t)
      (hrun : runTask env { s with tasks := removeAt s.tasks i } t = some s') :
      Step env s s'

/-- Reachability of engine states under any schedule. -/
def Reaches (env : Env) : EngineState → EngineState → Prop :=
  Relation.ReflTransGen (Step env)

/-- The state at the start of `findAllDependenciesRecursive(rootId)`:
empty map and edge list, then the synchronous prefix of
`_recursiveHelper(rootId)`. -/
def initState (rootId : String) : EngineState :=
  spawn ⟨[], [], [], [], []⟩ rootId

/-- Outcome of a run: the traversal settled, the `Promise.all` chain was
rejected by an unhandled error, or the step budget ran out. -/
inductive RunResult where
  | done (s : EngineState)
  | aborted
  | outOfFuel
deriving DecidableEq, Repr

/-- The deterministic FIFO schedule (promises resolve in the order they were
issued): always resume the oldest pending task.  This is one of the schedules
of `Step` (see `runD_reaches`). -/
def runD (env : Env) (s : EngineState) : Nat → RunResult
  | 0 => match s.tasks with
    | [] => .done s
    | _ :: _ => .outOfFuel
  | fuel + 1 =>
    match s.tasks with
    | [] => .done s
    | t :: rest =>
      match runTask env { s with tasks := rest } t with
      | none => .aborted
      | some s' => runD env s' fuel

/-! ### The main execution block (lines 193-207) -/

/-- The output document type `GraphData` (lines 48-51). -/
structure GraphData where
  nodes : List Node
  edges : List Edge
deriving DecidableEq, Repr

/-- Lines 195-196: `Array.from(nodesMap.values())` paired with the edge
list. -/
def graphOf (s : EngineState) : GraphData :=
  ⟨s.nodes.map Prod.snd, s.edges⟩

/-- A JSON value tree, the shape of the document written by
`JSON.stringify`. -/
inductive Json where
  | str (s : String)
  | arr (l : List Json)
  | obj (l : List (String × Json))

def nodeToJson (n : Node) : Json :=
  .obj [("id", .str n.id), ("name", .str n.name), ("type", .str n.type)]

def edgeToJson (e : Edge) : Json :=
  .obj [("source", .str e.source), ("target", .str e.target)]

/-- The document written to `graph.json`:
`{ nodes: [{id, name, type}], edges: [{source, target}] }`. -/
def graphToJson (g : GraphData) : Json :=
  .obj [("nodes", .arr (g.nodes.map nodeToJson)),
        ("edges", .arr (g.edges.map edgeToJson))]

/-- Traverse a list under a fallible element decoder. -/
def mapOpt {α β : Type} (f : α → Option β) : List α → Option (List β)
  | [] => some []
  | x :: xs =>
    match f x, mapOpt f xs with
    | some y, some ys => some (y :: ys)
    | _, _ => none

/-- Decode a node object of the exact shape produced by `nodeToJson`. -/
def jsonToNode : Json → Option Node
  | .obj [("id", .str i), ("name", .str n), ("type", .str t)] => some ⟨i, n, t⟩
  | _ => none

/-- Decode an edge object of the exact shape produced by `edgeToJson`. -/
def jsonToEdge : Json → Option Edge
  | .obj [("source", .str s), ("target", .str t)] => some ⟨s, t⟩
  | _ => none

/-- Parse a graph document back (the consumer side of the round trip). -/
def jsonToGraph : Json → Option GraphData
  | .obj [("nodes", .arr ns), ("edges", .arr es)] =>
    match mapOpt jsonToNode ns, mapOpt jsonToEdge es with
    | some nodes, some edges => some ⟨nodes, edges⟩
    | _, _ => none
  | _ => none

/-- Observable outcome of the main block: the success log line reports the
node and edge counts (line 201), and a fatal error reaches the catch block
and exits with a non-zero status (lines 204-207). -/
inductive MainOutcome where
  | success (nodeCount : Nat) (edgeCount : Nat)
  | fatalExit
deriving DecidableEq, Repr

/-- The main execution block: run the traversal; on settlement report the
summary counts, on an unhandled rejection exit fatally. -/
def runMain (env : Env) (root : String) (fuel : Nat) : Option MainOutcome :=
  match runD env (initState root) fuel with
  | .done s => some (.success (graphOf s).nodes.length (graphOf s).edges.length)
  | .aborted => some .fatalExit
  | .outOfFuel => none

/-! ### Derived notions used by the statements -/

/-- Keys of the visited map, in insertion order. -/
def keys (m : List (String × Node)) : List String := m.map Prod.fst

/-- Append an element unless it is already present. -/
def addFirst (acc : List String) (x : String) : List String :=
  if x ∈ acc then acc else acc ++ [x]

/-- First occurrences of a list, in order: the distinct ids of a log. -/
def distinctFirsts (l : List String) : List String := l.foldl addFirst []

/-- The final state of a settled run, if it settled. -/
def finalState : RunResult → Option EngineState
  | .done s => some s
  | _ => none

/-- Per-edge target invariant: the target of a recorded edge is in the
visited map, or a visit of it is still pending, or its metadata is
not-found. -/
def TargetOk (env : Env) (s : EngineState) (e : Edge) : Prop :=
  mapHas s.nodes e.target = true
  ∨ VisitTask.awaitMeta e.target ∈ s.tasks
  ∨ env.meta e.target = .notFound

/-- Invariant of every reachable engine state. -/
structure GoodState (env : Env) (s : EngineState) : Prop where
  resolved_eq : keys s.nodes = distinctFirsts (s.refLookups.map Prod.fst)
  nodup : (keys s.nodes).Nodup
  src_ok : ∀ e ∈ s.edges, mapHas s.nodes e.source = true
  deps_node : ∀ id v, VisitTask.awaitDeps id v ∈ s.tasks → mapHas s.nodes id = true
  tgt_ok : ∀ e ∈ s.edges, TargetOk env s e
  ref_found : ∀ p ∈ s.refLookups, ∃ n t, env.meta p.1 = .found n t p.2

/-! ### Concrete scenarios -/

/-- Diamond graph: X is reachable from R via two distinct paths,
R → A → X and R → B → X. -/
def envDiamond : Env where
  meta id :=
    if id == "R" then .found "Root" "process" (some 1)
    else if id == "A" then .found "CompA" "process" (some 1)
    else if id == "B" then .found "CompB" "process" (some 1)
    else if id == "X" then .found "CompX" "connector" (some 1)
    else .notFound
  refs id _ :=
    if id == "R" then ["A", "B"]
    else if id == "A" then ["X"]
    else if id == "B" then ["X"]
    else []

/-- Terminal state of the FIFO run on the diamond graph. -/
def sDiamond : EngineState :=
  ⟨[("R", ⟨"R", "Root", "process"⟩), ("A", ⟨"A", "CompA", "process"⟩),
    ("B", ⟨"B", "CompB", "process"⟩), ("X", ⟨"X", "CompX", "connector"⟩)],
   [⟨"R", "A"⟩, ⟨"R", "B"⟩, ⟨"A", "X"⟩, ⟨"B", "X"⟩],
   [], ["R", "A", "B", "X", "X"],
   [("R", some 1), ("A", some 1), ("B", some 1), ("X", some 1), ("X", some 1)]⟩

/-- Two-node cycle A → B → A. -/
def envCyc : Env where
  meta id :=
    if id == "A" then .found "na" "ta" (some 1)
    else if id == "B" then .found "nb" "tb" (some 2)
    else .notFound
  refs id _ := if id == "A" then ["B"] else if id == "B" then ["A"] else []

/-- Self-edge A → A. -/
def envSelf : Env where
  meta id := if id == "A" then .found "na" "ta" (some 1) else .notFound
  refs id _ := if id == "A" then ["A"] else []

/-- The example scenario of the spec: R resolves with references [A, B],
A resolves with no references, B is not found. -/
def envEx : Env where
  meta id :=
    if id == "R" then .found "Root" "Process" (some 1)
    else if id == "A" then .found "CompA" "Connector" (some 1)
    else .notFound
  refs id _ := if id == "R" then ["A", "B"] else []

/-- State of the `envEx` run when the visit of R resumes at its reference
list (the awaitDeps task has been taken off the pending list). -/
def exPre : EngineState :=
  ⟨[("R", ⟨"R", "Root", "Process"⟩)], [], [], ["R"], [("R", some 1)]⟩

/-- State of the `envEx` run just after the visit of R has pushed its two
edges and spawned the visits of A and B. -/
def exPost : EngineState :=
  ⟨[("R", ⟨"R", "Root", "Process"⟩)], [⟨"R", "A"⟩, ⟨"R", "B"⟩],
   [.awaitMeta "A", .awaitMeta "B"], ["R", "A", "B"], [("R", some 1)]⟩

/-- Terminal state of the `envEx` run. -/
def sEx : EngineState :=
  ⟨[("R", ⟨"R", "Root", "Process"⟩), ("A", ⟨"A", "CompA", "Connector"⟩)],
   [⟨"R", "A"⟩, ⟨"R", "B"⟩], [], ["R", "A", "B"],
   [("R", some 1), ("A", some 1)]⟩

/-- A world where the root resolves but the metadata resolution of the
non-root node A throws (for instance, exhausted retries on 503s). -/
def envBad : Env where
  meta id := if id == "R" then .found "Root" "process" (some 1) else .hardError
  refs id _ := if id == "R" then ["A"] else []

/-- A world where the metadata of V comes back without a version field and
V has no discoverable references. -/
def envVer : Env where
  meta id := if id == "V" then .found "n" "t" none else .notFound
  refs _ _ := []

/-- An operation failing transiently on its first two attempts, then
succeeding. -/
def retryOkFn : Nat → Except Failure Nat :=
  fun i => if i ≤ 2 then .error (.http 503) else .ok 42

/-- An operation failing transiently on every attempt. -/
def retryExhaustFn : Nat → Except Failure Nat :=
  fun _ => .error (.http 504)

/-- An operation failing with a not-found status on its first attempt. -/
def permFailFn : Nat → Except Failure Nat :=
  fun _ => .error (.http 404)

/-- A reference query answering with a nested result structure. -/
def qOkFn : Nat → Except Failure QueryResponse :=
  fun _ => .ok ⟨some [⟨some [⟨"a"⟩, ⟨"b"⟩]⟩, ⟨none⟩]⟩

/-- A reference query failing with a network error. -/
def qNetFn : Nat → Except Failure QueryResponse :=
  fun _ => .error .net

/-! ### Lemmas about the retry client -/

/-- Running the loop from attempt `a` over `k` consecutive transient failures
followed by a success returns the success after `k + 1` invocations and `k`
backoff delays. -/
theorem retryLoop_ok {T : Type} (fn : Nat → Except Failure T) (v : T) :
    ∀ (k a : Nat), 1 ≤ a → a + k ≤ MAX_RETRIES →
      (∀ i, a ≤ i → i < a + k → ∃ f, fn i = .error f ∧ isTransient f = true) →
      fn (a + k) = .ok v →
      retryLoop fn a (MAX_RETRIES + 1 - a) = ⟨.ok v, k + 1, k⟩ := by
  intro k
  induction k with
  | zero =>
    intro a ha hle _ hok
    have hfuel : MAX_RETRIES + 1 - a = (MAX_RETRIES - a) + 1 := by omega
    rw [hfuel, retryLoop]
    simpa using hok ▸ rfl
  | succ k ih =>
    intro a ha hle htrans hok
    obtain ⟨f, hf, hft⟩ := htrans a (le_refl a) (by omega)
    have hne : (a == MAX_RETRIES) = false := by
      have : a ≠ MAX_RETRIES := by simp [MAX_RETRIES] at hle ⊢; omega
      simp [this]
    have hfuel : MAX_RETRIES + 1 - a = (MAX_RETRIES + 1 - (a + 1)) + 1 := by
      simp [MAX_RETRIES] at hle ⊢; omega
    rw [hfuel, retryLoop, hf]
    simp only [hft, if_true, hne, if_false, Bool.false_eq_true]
    have hrec := ih (a + 1) (by omega) (by omega)
      (fun i h1 h2 => htrans i (by omega) (by omega))
      (by have : a + 1 + k = a + (k + 1) := by omega
          rw [this]; exact hok)
    rw [hrec]

/-- Running the loop from attempt `a` with `a + k = MAX_RETRIES` over
transient failures all the way fails with an `ApiError` carrying the status of
the last attempt and the attempt count, after `k + 1` invocations. -/
theorem retryLoop_exhaust {T : Type} (fn : Nat → Except Failure T) (s5 : Nat) :
    ∀ (k a : Nat), 1 ≤ a → a + k = MAX_RETRIES →
      (∀ i, a ≤ i → i ≤ MAX_RETRIES → ∃ f, fn i = .error f ∧ isTransient f = true) →
      fn MAX_RETRIES = .error (.http s5) →
      retryLoop fn a (MAX_RETRIES + 1 - a) =
        ⟨.error (.apiError ⟨some s5, some MAX_RETRIES⟩), k + 1, k⟩ := by
  intro k
  induction k with
  | zero =>
    intro a ha hlast htrans h5
    have haeq : a = MAX_RETRIES := by omega
    subst haeq
    have hfuel : MAX_RETRIES + 1 - MAX_RETRIES = 1 := by simp [MAX_RETRIES]
    obtain ⟨f, hf, hft⟩ := htrans MAX_RETRIES (le_refl _) (le_refl _)
    rw [h5] at hf
    injection hf with hf
    subst hf
    rw [hfuel, retryLoop, h5]
    simp [hft, failStatus]
  | succ k ih =>
    intro a ha hlast htrans h5
    obtain ⟨f, hf, hft⟩ := htrans a (le_refl a) (by omega)
    have hne : (a == MAX_RETRIES) = false := by
      have : a ≠ MAX_RETRIES := by simp [MAX_RETRIES] at hlast ⊢; omega
      simp [this]
    have hfuel : MAX_RETRIES + 1 - a = (MAX_RETRIES + 1 - (a + 1)) + 1 := by
      simp [MAX_RETRIES] at hlast ⊢; omega
    rw [hfuel, retryLoop, hf]
    simp only [hft, if_true, hne, if_false, Bool.false_eq_true]
    rw [ih (a + 1) (by omega) (by omega) (fun i h1 h2 => htrans i (by omega) h2) h5]

/-- C4: an operation that fails transiently exactly K < 5 times and then
succeeds is attempted exactly K + 1 times and its success is returned; an
operation that fails transiently on every attempt fails after exactly 5
attempts with an `ApiError` carrying the last status and the attempt
count. -/
theorem requestWithRetry_bound {T : Type} (fn : Nat → Except Failure T) :
    (∀ (K : Nat) (v : T), K < MAX_RETRIES →
      (∀ i, 1 ≤ i → i ≤ K → ∃ f, fn i = .error f ∧ isTransient f = true) →
      fn (K + 1) = .ok v →
      requestWithRetry fn = ⟨.ok v, K + 1, K⟩)
    ∧ (∀ s5 : Nat,
      (∀ i, 1 ≤ i → i ≤ MAX_RETRIES → ∃ f, fn i = .error f ∧ isTransient f = true) →
      fn MAX_RETRIES = .error (.http s5) →
      requestWithRetry fn =
        ⟨.error (.apiError ⟨some s5, some MAX_RETRIES⟩),
         MAX_RETRIES, MAX_RETRIES - 1⟩) := by
  constructor
  · intro K v hK htrans hok
    have h := retryLoop_ok fn v K 1 (le_refl 1)
      (by simp [MAX_RETRIES] at hK ⊢; omega)
      (fun i h1 h2 => htrans i h1 (by omega))
      (by rw [Nat.add_comm 1 K]; exact hok)
    simpa [requestWithRetry, MAX_RETRIES] using h
  · intro s5 htrans h5
    have h := retryLoop_exhaust fn s5 (MAX_RETRIES - 1) 1 (le_refl 1)
      (by simp [MAX_RETRIES]) htrans h5
    simpa [requestWithRetry, MAX_RETRIES] using h

/-- Witness for C4: two transient failures then success gives three attempts;
five transient failures give the terminal error with status 504 and attempt
count 5. -/
theorem requestWithRetry_bound_witness :
    requestWithRetry retryOkFn = ⟨.ok 42, 3, 2⟩
    ∧ requestWithRetry retryExhaustFn =
        ⟨.error (.apiError ⟨some 504, some 5⟩), 5, 4⟩ := by
  constructor
  · exact (requestWithRetry_bound retryOkFn).1 2 42 (by decide)
      (fun i h1 h2 => ⟨.http 503, by simp [retryOkFn, h2], rfl⟩) rfl
  · exact (requestWithRetry_bound retryExhaustFn).2 504
      (fun i h1 h2 => ⟨.http 504, rfl, rfl⟩) rfl

/-- C5: a first attempt failing non-transiently (any status other than
503/504, including not-found client errors, or a network error without a
response) is propagated unchanged after exactly one attempt, with no backoff
delay and no retry. -/
theorem requestWithRetry_permanent {T : Type} (fn : Nat → Except Failure T)
    (f : Failure) (h1 : fn 1 = .error f) (h2 : isTransient f = false) :
    requestWithRetry fn = ⟨.error (.raised f), 1, 0⟩ := by
  simp [requestWithRetry, MAX_RETRIES, retryLoop, h1, h2]

/-- Witness for C5: a 404 on the first attempt, and a network error on the
first attempt, each propagate after one attempt and zero delays. -/
theorem requestWithRetry_permanent_witness :
    requestWithRetry permFailFn = ⟨.error (.raised (.http 404)), 1, 0⟩
    ∧ requestWithRetry qNetFn = ⟨.error (.raised .net), 1, 0⟩ :=
  ⟨requestWithRetry_permanent permFailFn (.http 404) rfl rfl,
   requestWithRetry_permanent qNetFn .net rfl rfl⟩

/-- C6: the reference resolver never propagates an error: any failure of the
underlying request (network error, other statuses, retry exhaustion) yields
the empty list; a success is flattened into the flat list of referenced ids,
with an absent result and absent nested reference lists contributing
nothing. -/
theorem getDependencies_never_throws (fn : Nat → Except Failure QueryResponse) :
    (∀ e, (requestWithRetry fn).result = .error e → getDependencies fn = [])
    ∧ (∀ resp, (requestWithRetry fn).result = .ok resp →
        getDependencies fn = flattenRefs resp)
    ∧ getDependencies qNetFn = []
    ∧ getDependencies (fun _ => .error (.http 503)) = []
    ∧ flattenRefs ⟨none⟩ = []
    ∧ flattenRefs ⟨some [⟨some [⟨"a"⟩, ⟨"b"⟩]⟩, ⟨none⟩, ⟨some []⟩, ⟨some [⟨"c"⟩]⟩]⟩
        = ["a", "b", "c"] := by
  refine ⟨?_, ?_, rfl, rfl, rfl, rfl⟩
  · intro e he; simp [getDependencies, he]
  · intro resp hr; simp [getDependencies, hr]

/-- Witness for C6: a nested successful response flattens, a network failure
yields the empty list. -/
theorem getDependencies_never_throws_witness :
    getDependencies qOkFn = ["a", "b"] ∧ getDependencies qNetFn = [] :=
  ⟨((getDependencies_never_throws qOkFn).2.1
      ⟨some [⟨some [⟨"a"⟩, ⟨"b"⟩]⟩, ⟨none⟩]⟩ rfl).trans rfl,
   (getDependencies_never_throws qNetFn).1 (.raised .net) rfl⟩

/-! ### Lemmas about the visited map -/

theorem mapHas_eq_true_iff (m : List (String × Node)) (k : String) :
    mapHas m k = true ↔ k ∈ keys m := by
  induction m with
  | nil => simp [mapHas, keys]
  | cons p rest ih =>
    obtain ⟨k', v'⟩ := p
    show (k' == k || mapHas rest k) = true ↔ k ∈ keys ((k', v') :: rest)
    have hkeys : keys ((k', v') :: rest) = k' :: keys rest := rfl
    rw [hkeys, Bool.or_eq_true, beq_iff_eq, ih, List.mem_cons]
    exact ⟨fun h => h.imp Eq.symm id, fun h => h.imp Eq.symm id⟩

theorem keys_mapSet_of_has (m : List (String × Node)) (k : String) (v : Node)
    (h : mapHas m k = true) : keys (mapSet m k v) = keys m := by
  induction m with
  | nil => simp [mapHas] at h
  | cons p rest ih =>
    obtain ⟨k', v'⟩ := p
    by_cases hk : (k' == k) = true
    · simp [mapSet, hk, keys]
      exact (beq_iff_eq.mp hk).symm
    · simp [mapHas, hk] at h
      simp [mapSet, hk, keys]
      have := ih h
      simpa [keys] using this

theorem keys_mapSet_of_not_has (m : List (String × Node)) (k : String) (v : Node)
    (h : mapHas m k = false) : keys (mapSet m k v) = keys m ++ [k] := by
  induction m with
  | nil => simp [mapSet, keys]
  | cons p rest ih =>
    obtain ⟨k', v'⟩ := p
    simp [mapHas] at h
    obtain ⟨h1, h2⟩ := h
    have hk : (k' == k) = false := by simp [h1]
    simp [mapSet, hk, keys]
    have := ih h2
    simpa [keys] using this

theorem mapHas_mapSet_mono (m : List (String × Node)) (k x : String) (v : Node)
    (h : mapHas m x = true) : mapHas (mapSet m k v) x = true := by
  rw [mapHas_eq_true_iff] at h ⊢
  by_cases hk : mapHas m k = true
  · rwa [keys_mapSet_of_has m k v hk]
  · rw [keys_mapSet_of_not_has m k v (by simpa using hk)]
    exact List.mem_append_left _ h

theorem mapHas_mapSet_self (m : List (String × Node)) (k : String) (v : Node) :
    mapHas (mapSet m k v) k = true := by
  rw [mapHas_eq_true_iff]
  by_cases hk : mapHas m k = true
  · rw [keys_mapSet_of_has m k v hk]
    exact (mapHas_eq_true_iff m k).mp hk
  · rw [keys_mapSet_of_not_has m k v (by simpa using hk)]
    simp

/-! ### Lemmas about first occurrences -/

theorem distinctFirsts_append (l : List String) (x : String) :
    distinctFirsts (l ++ [x]) = addFirst (distinctFirsts l) x := by
  simp [distinctFirsts, List.foldl_append]

theorem mem_foldl_addFirst (l : List String) :
    ∀ acc y, y ∈ l.foldl addFirst acc → y ∈ acc ∨ y ∈ l := by
  induction l with
  | nil => intro acc y h; exact Or.inl h
  | cons x xs ih =>
    intro acc y h
    rcases ih (addFirst acc x) y h with h1 | h1
    · unfold addFirst at h1
      split at h1
      · exact Or.inl h1
      · rcases List.mem_append.mp h1 with h2 | h2
        · exact Or.inl h2
        · simp at h2; exact Or.inr (by simp [h2])
    · exact Or.inr (List.mem_cons_of_mem x h1)

theorem mem_of_mem_distinctFirsts {l : List String} {y : String}
    (h : y ∈ distinctFirsts l) : y ∈ l := by
  rcases mem_foldl_addFirst l [] y h with h1 | h1
  · cases h1
  · exact h1

theorem nodup_foldl_addFirst (l : List String) :
    ∀ acc, acc.Nodup → (l.foldl addFirst acc).Nodup := by
  induction l with
  | nil => intro acc h; exact h
  | cons x xs ih =>
    intro acc h
    apply ih
    unfold addFirst
    split
    · exact h
    · next hx => simp [List.nodup_append, h, hx]

theorem nodup_distinctFirsts (l : List String) : (distinctFirsts l).Nodup :=
  nodup_foldl_addFirst l [] List.nodup_nil

/-! ### Lemmas about task-list surgery -/

theorem removeAt_cons_zero (a : VisitTask) (l : List VisitTask) :
    removeAt (a :: l) 0 = l := rfl

theorem removeAt_cons_succ (a : VisitTask) (l : List VisitTask) (n : Nat) :
    removeAt (a :: l) (n + 1) = a :: removeAt l n := rfl

theorem removeAt_subset (l : List VisitTask) (i : Nat) : removeAt l i ⊆ l := by
  intro x hx
  rcases List.mem_append.mp hx with h | h
  · exact List.take_subset _ _ h
  · exact List.drop_subset _ _ h

theorem mem_of_get?_eq (l : List VisitTask) (i : Nat) (t : VisitTask)
    (h : l.get? i = some t) : t ∈ l := by
  induction l generalizing i with
  | nil => cases h
  | cons a rest ih =>
    cases i with
    | zero => simp at h; simp [h]
    | succ n => exact List.mem_cons_of_mem a (ih n h)

theorem mem_removeAt_of_ne (l : List VisitTask) (i : Nat) (t x : VisitTask)
    (h : l.get? i = some t) (hx : x ∈ l) (hne : x ≠ t) : x ∈ removeAt l i := by
  induction l generalizing i with
  | nil => cases h
  | cons a rest ih =>
    cases i with
    | zero =>
      simp at h
      rcases List.mem_cons.mp hx with h1 | h1
      · exact absurd (h ▸ h1) hne
      · rwa [removeAt_cons_zero]
    | succ n =>
      rw [removeAt_cons_succ]
      rcases List.mem_cons.mp hx with h1 | h1
      · exact h1 ▸ List.mem_cons_self a _
      · exact List.mem_cons_of_mem a (ih n h h1)

/-! ### Lemmas about spawn and the dependency loop -/

theorem spawn_nodes (s : EngineState) (id : String) :
    (spawn s id).nodes = s.nodes := by
  unfold spawn; split <;> rfl

theorem spawn_edges (s : EngineState) (id : String) :
    (spawn s id).edges = s.edges := by
  unfold spawn; split <;> rfl

theorem spawn_refLookups (s : EngineState) (id : String) :
    (spawn s id).refLookups = s.refLookups := by
  unfold spawn; split <;> rfl

theorem spawn_tasks_super (s : EngineState) (id : String) (t : VisitTask)
    (h : t ∈ s.tasks) : t ∈ (spawn s id).tasks := by
  unfold spawn; split
  · exact h
  · exact List.mem_append_left _ h

theorem spawn_tasks_cases (s : EngineState) (id : String) (t : VisitTask)
    (h : t ∈ (spawn s id).tasks) : t ∈ s.tasks ∨ t = .awaitMeta id := by
  unfold spawn at h; split at h
  · exact Or.inl h
  · rcases List.mem_append.mp h with h1 | h1
    · exact Or.inl h1
    · simp at h1; exact Or.inr h1

theorem processDeps_nil (p : String) (s : EngineState) :
    processDeps p [] s = s := rfl

theorem processDeps_cons (p d : String) (ds : List String) (s : EngineState) :
    processDeps p (d :: ds) s =
      processDeps p ds (spawn { s with edges := s.edges ++ [⟨p, d⟩] } d) := rfl

theorem processDeps_nodes (p : String) (deps : List String) :
    ∀ s, (processDeps p deps s).nodes = s.nodes := by
  induction deps with
  | nil => intro s; rfl
  | cons d ds ih => intro s; rw [processDeps_cons, ih, spawn_nodes]

theorem processDeps_refLookups (p : String) (deps : List String) :
    ∀ s, (processDeps p deps s).refLookups = s.refLookups := by
  induction deps with
  | nil => intro s; rfl
  | cons d ds ih => intro s; rw [processDeps_cons, ih, spawn_refLookups]

theorem processDeps_edges (p : String) (deps : List String) :
    ∀ s, (processDeps p deps s).edges = s.edges ++ deps.map (fun d => ⟨p, d⟩) := by
  induction deps with
  | nil => intro s; simp [processDeps_nil]
  | cons d ds ih =>
    intro s
    rw [processDeps_cons, ih, spawn_edges]
    simp

theorem processDeps_tasks_super (p : String) (deps : List String) (t : VisitTask) :
    ∀ s, t ∈ s.tasks → t ∈ (processDeps p deps s).tasks := by
  induction deps with
  | nil => intro s h; exact h
  | cons d ds ih =>
    intro s h
    rw [processDeps_cons]
    exact ih _ (spawn_tasks_super _ _ _ h)

theorem processDeps_tasks_cases (p : String) (deps : List String) (t : VisitTask) :
    ∀ s, t ∈ (processDeps p deps s).tasks →
      t ∈ s.tasks ∨ ∃ d, t = VisitTask.awaitMeta d := by
  induction deps with
  | nil => intro s h; exact Or.inl h
  | cons d ds ih =>
    intro s h
    rw [processDeps_cons] at h
    rcases ih _ h with h1 | h1
    · rcases spawn_tasks_cases _ _ _ h1 with h2 | h2
      · exact Or.inl h2
      · exact Or.inr ⟨d, h2⟩
    · exact Or.inr h1

theorem processDeps_tgt (env : Env) (p : String) (deps : List String) :
    ∀ s, (∀ e ∈ s.edges, TargetOk env s e) →
      ∀ e ∈ (processDeps p deps s).edges, TargetOk env (processDeps p deps s) e := by
  induction deps with
  | nil => intro s h e he; exact h e he
  | cons d ds ih =>
    intro s h
    rw [processDeps_cons]
    apply ih
    intro e he
    rw [spawn_edges] at he
    show mapHas (spawn _ d).nodes e.target = true
      ∨ VisitTask.awaitMeta e.target ∈ (spawn _ d).tasks
      ∨ env.meta e.target = .notFound
    rw [spawn_nodes]
    rcases List.mem_append.mp he with h1 | h1
    · rcases h e h1 with h2 | h2 | h2
      · exact Or.inl h2
      · exact Or.inr (Or.inl (spawn_tasks_super _ _ _ h2))
      · exact Or.inr (Or.inr h2)
    · simp at h1
      subst h1
      by_cases hd : mapHas s.nodes d = true
      · exact Or.inl hd
      · refine Or.inr (Or.inl ?_)
        unfold spawn
        rw [if_neg (by simpa using hd)]
        simp

/-! ### The invariant is preserved by every scheduling step -/

theorem good_init (env : Env) (root : String) : GoodState env (initState root) := by
  refine ⟨rfl, List.nodup_nil, ?_, ?_, ?_, ?_⟩
  · intro e he; cases he
  · intro id v h
    simp [initState, spawn, mapHas] at h
  · intro e he; cases he
  · intro p hp; cases hp

theorem good_step {env : Env} {s s' : EngineState} (hstep : Step env s s')
    (hg : GoodState env s) : GoodState env s' := by
  rcases hstep with ⟨i, t, s', ht, hrun⟩
  have htmem : t ∈ s.tasks := mem_of_get?_eq s.tasks i t ht
  cases t with
  | awaitMeta id =>
    dsimp only [runTask] at hrun
    cases hm : env.meta id with
    | hardError => rw [hm] at hrun; cases hrun
    | notFound =>
      rw [hm] at hrun
      injection hrun with hs'
      subst hs'
      refine ⟨hg.resolved_eq, hg.nodup, hg.src_ok, ?_, ?_, hg.ref_found⟩
      · intro id' v h
        exact hg.deps_node id' v (removeAt_subset s.tasks i h)
      · intro e he
        rcases hg.tgt_ok e he with h1 | h2 | h3
        · exact Or.inl h1
        · by_cases hid : e.target = id
          · exact Or.inr (Or.inr (hid ▸ hm))
          · refine Or.inr (Or.inl (mem_removeAt_of_ne s.tasks i _ _ ht h2 ?_))
            intro hc
            exact hid (VisitTask.awaitMeta.inj hc)
        · exact Or.inr (Or.inr h3)
    | found nm ty ver =>
      rw [hm] at hrun
      injection hrun with hs'
      subst hs'
      refine ⟨?_, ?_, ?_, ?_, ?_, ?_⟩
      · show keys (mapSet s.nodes id ⟨id, nm, ty⟩)
          = distinctFirsts ((s.refLookups ++ [(id, ver)]).map Prod.fst)
        rw [List.map_append]
        simp only [List.map_cons, List.map_nil]
        rw [distinctFirsts_append, ← hg.resolved_eq]
        by_cases hhas : mapHas s.nodes id = true
        · rw [keys_mapSet_of_has _ _ _ hhas, addFirst,
            if_pos ((mapHas_eq_true_iff _ _).mp hhas)]
        · have hno : mapHas s.nodes id = false := by simpa using hhas
          rw [keys_mapSet_of_not_has _ _ _ hno, addFirst,
            if_neg (fun hc => hhas ((mapHas_eq_true_iff _ _).mpr hc))]
      · by_cases hhas : mapHas s.nodes id = true
        · rw [keys_mapSet_of_has _ _ _ hhas]; exact hg.nodup
        · have hno : mapHas s.nodes id = false := by simpa using hhas
          rw [keys_mapSet_of_not_has _ _ _ hno]
          rw [List.nodup_append]
          exact ⟨hg.nodup, List.nodup_singleton id,
            by simp; exact fun hc => hhas ((mapHas_eq_true_iff _ _).mpr hc)⟩
      · intro e he
        exact mapHas_mapSet_mono _ _ _ _ (hg.src_ok e he)
      · intro id' v h
        rcases List.mem_append.mp h with h1 | h1
        · exact mapHas_mapSet_mono _ _ _ _
            (hg.deps_node id' v (removeAt_subset s.tasks i h1))
        · simp at h1
          obtain ⟨h2, h3⟩ := h1
          subst h2
          exact mapHas_mapSet_self _ _ _
      · intro e he
        rcases hg.tgt_ok e he with h1 | h2 | h3
        · exact Or.inl (mapHas_mapSet_mono _ _ _ _ h1)
        · by_cases hid : e.target = id
          · subst hid
            exact Or.inl (mapHas_mapSet_self _ _ _)
          · refine Or.inr (Or.inl (List.mem_append_left _
              (mem_removeAt_of_ne s.tasks i _ _ ht h2 ?_)))
            intro hc
            exact hid (VisitTask.awaitMeta.inj hc)
        · exact Or.inr (Or.inr h3)
      · intro p hp
        rcases List.mem_append.mp hp with h1 | h1
        · exact hg.ref_found p h1
        · simp at h1
          subst h1
          exact ⟨nm, ty, hm⟩
  | awaitDeps id ver =>
    dsimp only [runTask] at hrun
    injection hrun with hs'
    subst hs'
    have hid : mapHas s.nodes id = true := hg.deps_node id ver htmem
    have hbase_tgt : ∀ e ∈ s.edges,
        TargetOk env { s with tasks := removeAt s.tasks i } e := by
      intro e he
      rcases hg.tgt_ok e he with h1 | h2 | h3
      · exact Or.inl h1
      · refine Or.inr (Or.inl (mem_removeAt_of_ne s.tasks i _ _ ht h2 ?_))
        intro hc
        cases hc
      · exact Or.inr (Or.inr h3)
    refine ⟨?_, ?_, ?_, ?_, ?_, ?_⟩
    · rw [processDeps_nodes, processDeps_refLookups]
      exact hg.resolved_eq
    · rw [processDeps_nodes]
      exact hg.nodup
    · intro e he
      rw [processDeps_edges] at he
      rw [processDeps_nodes]
      rcases List.mem_append.mp he with h1 | h1
      · exact hg.src_ok e h1
      · rcases List.mem_map.mp h1 with ⟨d, _, hd⟩
        subst hd
        exact hid
    · intro id' v h
      rcases processDeps_tasks_cases _ _ _ _ h with h1 | h1
      · rw [processDeps_nodes]
        exact hg.deps_node id' v (removeAt_subset s.tasks i h1)
      · obtain ⟨d, hd⟩ := h1
        cases hd
    · exact processDeps_tgt env id (env.refs id ver) _ hbase_tgt
    · rw [processDeps_refLookups]
      exact hg.ref_found

/-- Every state reachable from the initial state satisfies the invariant. -/
theorem reaches_good {env : Env} {root : String} {s : EngineState}
    (h : Reaches env (initState root) s) : GoodState env s := by
  induction h with
  | refl => exact good_init env root
  | tail _ hstep ih => exact good_step hstep ih

/-- Edges are append-only: no step removes a recorded edge. -/
theorem step_edges_subset {env : Env} {s s' : EngineState} (hstep : Step env s s') :
    s.edges ⊆ s'.edges := by
  rcases hstep with ⟨i, t, s', ht, hrun⟩
  cases t with
  | awaitMeta id =>
    dsimp only [runTask] at hrun
    cases hm : env.meta id with
    | hardError => rw [hm] at hrun; cases hrun
    | notFound =>
      rw [hm] at hrun; injection hrun with hs'; subst hs'
      exact fun e he => he
    | found nm ty ver =>
      rw [hm] at hrun; injection hrun with hs'; subst hs'
      exact fun e he => he
  | awaitDeps id ver =>
    dsimp only [runTask] at hrun
    injection hrun with hs'
    subst hs'
    intro e he
    rw [processDeps_edges]
    exact List.mem_append_left _ he

theorem reaches_edges_subset {env : Env} {s s' : EngineState}
    (h : Reaches env s s') : s.edges ⊆ s'.edges := by
  induction h with
  | refl => exact fun e he => he
  | tail _ hstep ih => exact fun e he => step_edges_subset hstep (ih he)

/-- The FIFO run is one of the schedules of `Step`. -/
theorem runD_reaches {env : Env} : ∀ (fuel : Nat) (s s' : EngineState),
    runD env s fuel = .done s' → Reaches env s s' := by
  intro fuel
  induction fuel with
  | zero =>
    intro s s' h
    obtain ⟨nodes, edges, tasks, ml, rl⟩ := s
    cases tasks with
    | nil => exact (RunResult.done.inj h) ▸ Relation.ReflTransGen.refl
    | cons t rest => simp [runD] at h
  | succ n ih =>
    intro s s' h
    obtain ⟨nodes, edges, tasks, ml, rl⟩ := s
    cases tasks with
    | nil => exact (RunResult.done.inj h) ▸ Relation.ReflTransGen.refl
    | cons t rest =>
      simp only [runD] at h
      split at h
      · exact absurd h (by simp)
      · next s1 hrt =>
        exact Relation.ReflTransGen.head (Step.mk 0 t s1 rfl hrt) (ih s1 s' h)

/-- An aborted run exhibits an id whose metadata resolution threw. -/
theorem runD_abort_hard {env : Env} : ∀ (fuel : Nat) (s : EngineState),
    runD env s fuel = .aborted → ∃ id, env.meta id = .hardError := by
  intro fuel
  induction fuel with
  | zero =>
    intro s h
    obtain ⟨nodes, edges, tasks, ml, rl⟩ := s
    cases tasks with
    | nil => simp [runD] at h
    | cons t rest => simp [runD] at h
  | succ n ih =>
    intro s h
    obtain ⟨nodes, edges, tasks, ml, rl⟩ := s
    cases tasks with
    | nil => simp [runD] at h
    | cons t rest =>
      simp only [runD] at h
      split at h
      · next hrt =>
        cases t with
        | awaitMeta id =>
          dsimp only [runTask] at hrt
          cases hm : env.meta id with
          | hardError => exact ⟨id, hm⟩
          | notFound => rw [hm] at hrt; cases hrt
          | found nm ty ver => rw [hm] at hrt; cases hrt
        | awaitDeps id ver =>
          dsimp only [runTask] at hrt
          cases hrt
      · next s1 hrt => exact ih s1 h

/-- If no metadata resolution throws, no schedule of the run aborts. -/
theorem runD_no_abort {env : Env} (hgood : ∀ id, env.meta id ≠ .hardError)
    (fuel : Nat) (s : EngineState) : runD env s fuel ≠ .aborted := by
  intro h
  obtain ⟨id, hid⟩ := runD_abort_hard fuel s h
  exact hgood id hid

/-! ### Round-trip lemmas for the output document -/

theorem jsonToNode_nodeToJson (n : Node) : jsonToNode (nodeToJson n) = some n := rfl

theorem jsonToEdge_edgeToJson (e : Edge) : jsonToEdge (edgeToJson e) = some e := rfl

theorem mapOpt_nodes (l : List Node) :
    mapOpt jsonToNode (l.map nodeToJson) = some l := by
  induction l with
  | nil => rfl
  | cons n ns ih => simp [mapOpt, jsonToNode_nodeToJson, ih]

theorem mapOpt_edges (l : List Edge) :
    mapOpt jsonToEdge (l.map edgeToJson) = some l := by
  induction l with
  | nil => rfl
  | cons e es ih => simp [mapOpt, jsonToEdge_edgeToJson, ih]

theorem jsonToGraph_graphToJson (g : GraphData) :
    jsonToGraph (graphToJson g) = some g := by
  obtain ⟨ns, es⟩ := g
  simp [graphToJson, jsonToGraph, mapOpt_nodes, mapOpt_edges]

/-! ### The claims -/

/-- C1, counterexample: in the diamond graph of `envDiamond` (X reachable
from R via R→A→X and R→B→X), under the schedule in which promises resolve in
the order their requests were issued (realized with uniform network latency),
the visits of X spawned by A and by B both pass the line-161 unseen check
before either has inserted X — the insertion of line 167 happens only after
the metadata await — so the engine issues two metadata lookups and two
reference lookups for X, refuting the at-most-one bound; X still gets exactly
one node entry because `Map.set` overwrites. -/
theorem dedup_lookup_counterexample :
    (finalState (runD envDiamond (initState "R") 10)).map
        (fun s => (s.metaLookups.count "X",
                   s.refLookups.countP (fun p => p.1 == "X"),
                   (keys s.nodes).count "X")) = some (2, 2, 1) := by decide

/-- C1, amended: for every schedule and every reachable state, the visited
map never holds two entries with the same id, so a resource reachable via two
distinct paths appears exactly once among the nodes; but the engine may issue
two metadata lookups and two reference lookups for such a resource when two
visits reach it concurrently while it is still unseen, as the diamond run
shows (X is looked up twice yet keeps a single node entry). -/
theorem dedup_amended (env : Env) (root : String) (s : EngineState)
    (h : Reaches env (initState root) s) :
    (keys s.nodes).Nodup
    ∧ (finalState (runD envDiamond (initState "R") 10)).map
        (fun st => ((keys st.nodes).count "X", st.metaLookups.count "X"))
        = some (1, 2) :=
  ⟨(reaches_good h).nodup, by decide⟩

/-- Witness for C1 (amended), at the terminal state of the diamond run. -/
theorem dedup_amended_witness :
    (keys sDiamond.nodes).Nodup
    ∧ (finalState (runD envDiamond (initState "R") 10)).map
        (fun st => ((keys st.nodes).count "X", st.metaLookups.count "X"))
        = some (1, 2) :=
  dedup_amended envDiamond "R" sDiamond (runD_reaches 10 _ _ (by decide))

/-- C2: on a reference graph forming the cycle A→B→A the run terminates (in
four scheduling steps, the only schedule, since a single visit is in flight
at any time) and returns exactly the nodes {A, B} and the edges {A→B, B→A};
each id is inserted into the visited map when its metadata resolves, before
its references are recursed into, which is why the second visit of A
short-circuits.  A self-edge A→A likewise terminates with the single node A
and the single edge A→A. -/
theorem discover_cycle_safe (a b na ta nb tb : String) (va vb : Option Nat)
    (hab : a ≠ b) (env : Env)
    (hma : env.meta a = .found na ta va) (hmb : env.meta b = .found nb tb vb)
    (hra : env.refs a va = [b]) (hrb : env.refs b vb = [a]) :
    (runD env (initState a) 4 =
      .done ⟨[(a, ⟨a, na, ta⟩), (b, ⟨b, nb, tb⟩)],
             [⟨a, b⟩, ⟨b, a⟩], [], [a, b], [(a, va), (b, vb)]⟩)
    ∧ (∀ env2 : Env, env2.meta a = .found na ta va → env2.refs a va = [a] →
        runD env2 (initState a) 2 =
          .done ⟨[(a, ⟨a, na, ta⟩)], [⟨a, a⟩], [], [a], [(a, va)]⟩) := by
  have hba : (b == a) = false := by
    simp [beq_eq_false_iff_ne]
    exact fun hc => hab hc.symm
  have hab2 : (a == b) = false := by
    simp [beq_eq_false_iff_ne]
    exact hab
  constructor
  · simp [runD, initState, spawn, runTask, processDeps, mapHas, mapSet,
      hma, hmb, hra, hrb, hab2, hba]
  · intro env2 h1 h2
    simp [runD, initState, spawn, runTask, processDeps, mapHas, mapSet, h1, h2]

/-- Witness for C2 on the concrete cycle A→B→A and the self-edge A→A. -/
theorem discover_cycle_safe_witness :
    runD envCyc (initState "A") 4 =
      .done ⟨[("A", ⟨"A", "na", "ta"⟩), ("B", ⟨"B", "nb", "tb"⟩)],
             [⟨"A", "B"⟩, ⟨"B", "A"⟩], [], ["A", "B"],
             [("A", some 1), ("B", some 2)]⟩
    ∧ runD envSelf (initState "A") 2 =
      .done ⟨[("A", ⟨"A", "na", "ta"⟩)], [⟨"A", "A"⟩], [], ["A"],
             [("A", some 1)]⟩ :=
  have h := discover_cycle_safe "A" "B" "na" "ta" "nb" "tb" (some 1) (some 2)
    (by decide) envCyc rfl rfl rfl rfl
  ⟨h.1, h.2 envSelf rfl rfl⟩

/-- C3: when the metadata of X resolves not-found, (i) the resolver maps a
404 and a 400 response to the sentinel `none` instead of an error, (ii) in
every state reachable under any schedule, X is absent from the node set and
no reference lookup was ever issued for X, and (iii) an edge from a parent
whose reference list contains X is still recorded when the references of
that parent are processed, and recorded (dangling) edges persist for the rest
of the run. -/
theorem notFound_pruning (env : Env) (X : String) (hX : env.meta X = .notFound) :
    (getComponentMetadata (fun _ => .error (.http 404)) X = .ok none
      ∧ getComponentMetadata (fun _ => .error (.http 400)) X = .ok none)
    ∧ (∀ root s, Reaches env (initState root) s →
        mapHas s.nodes X = false ∧ X ∉ s.refLookups.map Prod.fst)
    ∧ (∀ parent v st s', runTask env st (.awaitDeps parent v) = some s' →
        X ∈ env.refs parent v → Edge.mk parent X ∈ s'.edges)
    ∧ (∀ s s', Reaches env s s' → s.edges ⊆ s'.edges) := by
  refine ⟨⟨?_, ?_⟩, ?_, ?_, ?_⟩
  · simp [getComponentMetadata, requestWithRetry, MAX_RETRIES, retryLoop, isTransient]
  · simp [getComponentMetadata, requestWithRetry, MAX_RETRIES, retryLoop, isTransient]
  · intro root s h
    have hg := reaches_good h
    have hnotlog : X ∉ s.refLookups.map Prod.fst := by
      intro hmem
      rcases List.mem_map.mp hmem with ⟨p, hp, hfst⟩
      obtain ⟨n, t, hft⟩ := hg.ref_found p hp
      rw [hfst, hX] at hft
      cases hft
    refine ⟨?_, hnotlog⟩
    cases hhas : mapHas s.nodes X with
    | false => rfl
    | true =>
      exfalso
      have hmem := (mapHas_eq_true_iff _ _).mp hhas
      rw [hg.resolved_eq] at hmem
      exact hnotlog (mem_of_mem_distinctFirsts hmem)
  · intro parent v st s' hrun hmem
    dsimp only [runTask] at hrun
    injection hrun with hs'
    subst hs'
    rw [processDeps_edges]
    exact List.mem_append_right _ (List.mem_map.mpr ⟨X, hmem, rfl⟩)
  · intro s s' h
    exact reaches_edges_subset h

/-- Witness for C3 on the example scenario: B is not found, B is absent from
the settled node set, no reference lookup was issued for B, and the dangling
edge R→B is recorded in the final state. -/
theorem notFound_pruning_witness :
    getComponentMetadata (fun _ => .error (.http 404)) "B" = .ok none
    ∧ mapHas sEx.nodes "B" = false
    ∧ "B" ∉ sEx.refLookups.map Prod.fst
    ∧ Edge.mk "R" "B" ∈ sEx.edges := by
  have h := notFound_pruning envEx "B" (by decide)
  have h2 := h.2.1 "R" sEx (runD_reaches 5 _ _ (by decide))
  have h3 := h.2.2.1 "R" (some 1) exPre exPost (by decide) (by decide)
  have h4 := h.2.2.2 exPost sEx (runD_reaches 3 _ _ (by decide)) h3
  exact ⟨h.1.1, h2.1, h2.2, h4⟩

/-- C7: in every reachable state, the source id of each recorded edge is present
in the node set (the node is inserted at line 167 before its edges are
appended at line 175); once the run has settled (no pending task), an edge
target absent from the node set can only be an id whose metadata resolved
not-found; and recorded dangling edges are retained, never removed, by the
rest of the run. -/
theorem edge_source_invariant (env : Env) (root : String) (s : EngineState)
    (h : Reaches env (initState root) s) :
    (∀ e ∈ s.edges, mapHas s.nodes e.source = true)
    ∧ (s.tasks = [] → ∀ e ∈ s.edges, mapHas s.nodes e.target = false →
        env.meta e.target = .notFound)
    ∧ (∀ s', Reaches env s s' → s.edges ⊆ s'.edges) := by
  have hg := reaches_good h
  refine ⟨hg.src_ok, ?_, fun s' h' => reaches_edges_subset h'⟩
  intro hterm e he htgt
  rcases hg.tgt_ok e he with h1 | h2 | h3
  · rw [htgt] at h1; cases h1
  · rw [hterm] at h2; cases h2
  · exact h3

/-- Witness for C7 at the settled example run: the source R of the dangling
edge R→B is in the node set, and its absent target B resolved not-found. -/
theorem edge_source_invariant_witness :
    mapHas sEx.nodes "R" = true ∧ envEx.meta "B" = .notFound := by
  have h := edge_source_invariant envEx "R" sEx (runD_reaches 5 _ _ (by decide))
  exact ⟨h.1 ⟨"R", "B"⟩ (by decide), h.2.1 rfl ⟨"R", "B"⟩ (by decide) (by decide)⟩

/-- C8: a settled run produces the single document
`{nodes: [{id, name, type}], edges: [{source, target}]}` built from the
accumulated state; parsing it back returns the identical graph, whose node
count equals the number of distinct successfully resolved identifiers (the
distinct ids of the resolution log) and whose edge count equals the number of
reference relations recorded during the traversal. -/
theorem roundtrip_shape (env : Env) (root : String) (fuel : Nat)
    (s : EngineState) (h : runD env (initState root) fuel = .done s) :
    jsonToGraph (graphToJson (graphOf s)) = some (graphOf s)
    ∧ (graphOf s).nodes.length
        = (distinctFirsts (s.refLookups.map Prod.fst)).length
    ∧ (graphOf s).edges.length = s.edges.length := by
  have hg := reaches_good (runD_reaches fuel _ _ h)
  refine ⟨jsonToGraph_graphToJson _, ?_, rfl⟩
  show (s.nodes.map Prod.snd).length = _
  rw [← hg.resolved_eq]
  simp [keys]

/-- Witness for C8 at the settled example run: the document round-trips and
reports two nodes and two edges. -/
theorem roundtrip_shape_witness :
    jsonToGraph (graphToJson (graphOf sEx)) = some (graphOf sEx)
    ∧ (graphOf sEx).nodes.length = 2
    ∧ (graphOf sEx).edges.length = 2 := by
  have h := roundtrip_shape envEx "R" 5 sEx (by decide)
  exact ⟨h.1, h.2.1.trans (by decide), h.2.2.trans (by decide)⟩

/-- C9, counterexample: in `envBad` the root R resolves and references the
non-root node A, whose metadata resolution throws (for instance exhausted
retries); the rejection propagates through the `Promise.all` chain to the
top-level catch and the run exits fatally, although the root identifier was
resolvable — so a failed metadata resolution of a single non-root node
does abort the run, and fatal exits are not confined to an unresolvable root
or an unexpected non-classified error. -/
theorem fatal_exit_counterexample :
    runMain envBad "R" 10 = some .fatalExit
    ∧ envBad.meta "R" = .found "Root" "process" (some 1)
    ∧ envBad.meta "A" = .hardError := by decide

/-- C9, amended: the run exits fatally exactly when the metadata resolution
of some visited identifier — the root or any non-root node — throws an
unrecovered error (not-found resolutions and reference-lookup failures never
abort): if no metadata resolution throws, no run exits fatally, and a fatal
exit exhibits a throwing identifier; a settled run reports the summary node
and edge counts of the discovered graph. -/
theorem fatal_exit_semantics :
    (∀ (env : Env) (root : String) (fuel : Nat),
      (∀ id, env.meta id ≠ .hardError) → runMain env root fuel ≠ some .fatalExit)
    ∧ (∀ (env : Env) (root : String) (fuel : Nat),
      runMain env root fuel = some .fatalExit → ∃ id, env.meta id = .hardError)
    ∧ (∀ (env : Env) (root : String) (fuel : Nat) (s : EngineState),
      runD env (initState root) fuel = .done s →
      runMain env root fuel = some (.success s.nodes.length s.edges.length)) := by
  refine ⟨?_, ?_, ?_⟩
  · intro env root fuel hgood hfatal
    unfold runMain at hfatal
    split at hfatal
    · simp at hfatal
    · next habort => exact runD_no_abort hgood fuel _ habort
    · simp at hfatal
  · intro env root fuel hfatal
    unfold runMain at hfatal
    split at hfatal
    · simp at hfatal
    · next habort => exact runD_abort_hard fuel _ habort
    · simp at hfatal
  · intro env root fuel s h
    unfold runMain
    rw [h]
    simp [graphOf]

/-- Witness for C9 (amended): with every id resolving not-found except a
found root with no references, the run never exits fatally and reports zero
counts once settled; applied at the example world, the settled run reports
two nodes and two edges. -/
theorem fatal_exit_semantics_witness :
    runMain envEx "R" 5 ≠ some .fatalExit
    ∧ runMain envEx "R" 5 = some (.success 2 2) := by
  have h1 := fatal_exit_semantics.1 envEx "R" 5 (by
    intro id
    simp only [envEx]
    split
    · simp
    · split
      · simp
      · simp)
  have h2 := fatal_exit_semantics.2.2 envEx "R" 5 sEx (by decide)
  exact ⟨h1, h2.trans (by decide)⟩

/-- C10: a metadata payload carrying no version field still resolves to a
`ComponentInfo` whose optional version is absent, with no guard anywhere;
the visit of such an id inserts its node and issues the reference query
carrying the absent version unchecked (the `as number` cast of line 170
passes it through); and when that under-specified query fails, the failure is
absorbed as zero references, so the id ends as a leaf node of the output with
no outgoing edges rather than as a failed lookup. -/
theorem missing_version_leaf (id n t : String) :
    getComponentMetadata (fun _ => .ok ⟨n, t, none⟩) id
      = .ok (some ⟨id, n, t, none⟩)
    ∧ getDependencies (fun _ => .error (.http 400)) = []
    ∧ (∀ env : Env, env.meta id = .found n t none → env.refs id none = [] →
        runD env (initState id) 2 =
          .done ⟨[(id, ⟨id, n, t⟩)], [], [], [id], [(id, none)]⟩) := by
  refine ⟨?_, rfl, ?_⟩
  · simp [getComponentMetadata, requestWithRetry, MAX_RETRIES, retryLoop]
  · intro env h1 h2
    simp [runD, initState, spawn, runTask, processDeps, mapHas, mapSet, h1, h2]

/-- Witness for C10 at the concrete world `envVer`. -/
theorem missing_version_leaf_witness :
    getComponentMetadata (fun _ => .ok ⟨"n", "t", none⟩) "V"
      = .ok (some ⟨"V", "n", "t", none⟩)
    ∧ getDependencies (fun _ => .error (.http 400)) = []
    ∧ runD envVer (initState "V") 2 =
        .done ⟨[("V", ⟨"V", "n", "t"⟩)], [], [], ["V"], [("V", none)]⟩ := by
  have h := missing_version_leaf "V" "n" "t"
  exact ⟨h.1, h.2.1, h.2.2 envVer (by decide) rfl⟩
